import Mathlib

/-!
Verification development for the stenography practice tool (`stenotype.py`).

Text is modelled as `List Char` (Python `str`, restricted to the characters
actually exercised).  Python dictionaries are modelled as association lists in
insertion order, which matches CPython's ordered-dict semantics.  The GUI layer
(labels, colours, dialogs) carries no session state, so it is omitted: only the
fields of the application object that the practice logic reads or writes are
embedded.
-/

namespace Stenotype

/-- ASCII whitespace recognised by Python's `str.split()` / `str.strip()`
(restricted to the ASCII range). -/
def isWs (c : Char) : Bool :=
  c = ' ' || c = '\t' || c = '\n' || c = '\r' || c = '\x0b' || c = '\x0c'

/-- Python `s.strip()`: drop leading and trailing whitespace. -/
def pyStrip (s : List Char) : List Char :=
  ((s.dropWhile isWs).reverse.dropWhile isWs).reverse

/-- Worker for Python `s.split()`: `acc` holds the current chunk reversed. -/
def pySplitAux : List Char → List Char → List (List Char)
  | [], acc => if acc.isEmpty then [] else [acc.reverse]
  | c :: cs, acc =>
      if isWs c then
        if acc.isEmpty then pySplitAux cs []
        else acc.reverse :: pySplitAux cs []
      else pySplitAux cs (c :: acc)

/-- Python `s.split()` (no argument): maximal runs of non-whitespace. -/
def pySplit (s : List Char) : List (List Char) :=
  pySplitAux s []

/-- Python `" ".join(chunks)`. -/
def joinSpace : List (List Char) → List Char
  | [] => []
  | [u] => u
  | u :: v :: rest => u ++ ' ' :: joinSpace (v :: rest)

/-- `normalize_text` from the source: `" ".join(s.strip().split())`. -/
def normalize_text (s : List Char) : List Char :=
  joinSpace (pySplit (pyStrip s))

mutual

/-- Worker for `re.split(r"\s+", s)`: accumulating a non-separator chunk. -/
def reSplitAux : List Char → List Char → List (List Char)
  | [], acc => [acc.reverse]
  | c :: cs, acc =>
      if isWs c then acc.reverse :: reSplitSkip cs
      else reSplitAux cs (c :: acc)

/-- Worker for `re.split(r"\s+", s)`: inside a separator run. -/
def reSplitSkip : List Char → List (List Char)
  | [] => [[]]
  | c :: cs => if isWs c then reSplitSkip cs else reSplitAux cs [c]

end

/-- `re.split(r"\s+", s)` on a string (keeps empty chunks at the edges). -/
def reSplit (s : List Char) : List (List Char) :=
  reSplitAux s []

/-- `tokenize_source_text` from the source: normalize, then split on
whitespace runs (empty text gives no tokens). -/
def tokenize_source_text (text : List Char) : List (List Char) :=
  let t := normalize_text text
  if t = [] then [] else reSplit t

/-- `load_word_bank` from the source, over the file's lines: strip each line,
skip blanks and `#`-comment lines. -/
def load_word_bank (lines : List (List Char)) : List (List Char) :=
  lines.filterMap (fun line =>
    let s := pyStrip line
    if s = [] then none
    else if s.headD ' ' = '#' then none
    else some s)

/-!  Dictionary loader (`load_dictionary_json`).

The loader receives `json.load`'s output, already checked to be an object, so
the input is modelled as the ordered list of its entries.  JSON object keys
are always strings (so the `isinstance(k, str)` tests in the source are
identically true); values are a string, a list, or something else.  -/

/-- A JSON value as far as the loader distinguishes them: a string, a list
(of JSON values), or anything else (numbers, booleans, objects, null). -/
inductive JVal where
  | jstr (s : List Char)
  | jlist (xs : List JVal)
  | jother

/-- `isinstance(v, str)` on a JSON value. -/
def JVal.isStr : JVal → Bool
  | .jstr _ => true
  | _ => false

/-- `looks_like_stroke` from the source: every character in the allowed
alphabet (ASCII letters, digits, `-`, `/`, `*`) and at least one of the three
separators present. -/
def allowedStrokeChar (c : Char) : Bool :=
  ('A' ≤ c && c ≤ 'Z') || ('a' ≤ c && c ≤ 'z') || ('0' ≤ c && c ≤ '9') ||
    c = '-' || c = '/' || c = '*'

/-- `looks_like_stroke(s)` from the source. -/
def looks_like_stroke (s : List Char) : Bool :=
  s.all allowedStrokeChar && (s.contains '/' || s.contains '-' || s.contains '*')

/-- The result mapping: translation text to list of strokes, in insertion
order (Python `dict[str, list[str]]`). -/
abbrev Dict := List (List Char × List (List Char))

/-- First-occurrence association-list lookup (`d.get(k)` / `d[k]`). -/
def dlookup (m : Dict) (t : List Char) : Option (List (List Char)) :=
  match m with
  | [] => none
  | (k, v) :: rest => if k = t then some v else dlookup rest t

/-- Python `out[t] = v`: replace the value in place if the key is present
(keeping its position), else append the new binding. -/
def dictInsert (m : Dict) (t : List Char) (v : List (List Char)) : Dict :=
  match m with
  | [] => [(t, v)]
  | (k, w) :: rest =>
      if k = t then (k, v) :: rest else (k, w) :: dictInsert rest t v

/-- Python `out.setdefault(t, []).append(x)`: append `x` to an existing
binding in place, or add a new singleton binding at the end. -/
def dictAppend (m : Dict) (t : List Char) (x : List Char) : Dict :=
  match m with
  | [] => [(t, [x])]
  | (k, w) :: rest =>
      if k = t then (k, w ++ [x]) :: rest else (k, w) :: dictAppend rest t x

/-- The branch condition of `load_dictionary_json`:
`key_strokeish >= max(1, len(items) // 4) and
 val_stringish >= max(1, (len(items) * 3) // 4)`. -/
def strokeCond (items : List (List Char × JVal)) : Bool :=
  decide (max 1 (items.length / 4) ≤
      items.countP (fun p => looks_like_stroke p.1)) &&
  decide (max 1 (items.length * 3 / 4) ≤
      items.countP (fun p => p.2.isStr))

/-- The stroke→translation (inverting) loop of `load_dictionary_json`:
normalize the translation value, accumulate the stroke under it; entries
whose value is not a string are skipped. -/
def invertLoop (items : List (List Char × JVal)) (out : Dict) : Dict :=
  match items with
  | [] => out
  | (stroke, v) :: rest =>
      match v with
      | .jstr tr => invertLoop rest (dictAppend out (normalize_text tr) stroke)
      | _ => invertLoop rest out

/-- `all(isinstance(x, str) for x in strokes)` plus the identity conversion:
the list of strings if every element is a string, else `none`. -/
def asStrList : List JVal → Option (List (List Char))
  | [] => some []
  | .jstr s :: rest => (asStrList rest).map (fun l => s :: l)
  | _ :: _ => none

/-- Value conversion of the translation→strokes branch: a bare string wraps
into a one-element list, a list of strings is kept as is, anything else is
dropped. -/
def strokes_of_value : JVal → Option (List (List Char))
  | .jstr s => some [s]
  | .jlist xs => asStrList xs
  | .jother => none

/-- The translation→strokes (direct) loop of `load_dictionary_json`:
normalize the key, assign the converted value (`out[t] = ...`); entries with
an unsupported value shape are skipped. -/
def directLoop (items : List (List Char × JVal)) (out : Dict) : Dict :=
  match items with
  | [] => out
  | (translation, v) :: rest =>
      match strokes_of_value v with
      | some l => directLoop rest (dictInsert out (normalize_text translation) l)
      | none => directLoop rest out

/-- `load_dictionary_json` from the source, after `json.load` and the
object check, as a function of the object's entries in order. -/
def load_dictionary (items : List (List Char × JVal)) : Dict :=
  if items.isEmpty then []
  else if strokeCond items then invertLoop items []
  else directLoop items []

/-- The edge-punctuation set stripped by `_hint_for`:
`word.strip(".,!?;:\"'()[]{}")`. -/
def hintPunct : List Char :=
  ['.', ',', '!', '?', ';', ':', '"', '\'', '(', ')', '[', ']', '\x7b', '\x7d']

/-- Python `s.strip(chars)`: drop leading and trailing characters from the
given set. -/
def pyStripChars (cs : List Char) (s : List Char) : List Char :=
  ((s.dropWhile cs.contains).reverse.dropWhile cs.contains).reverse

/-- The lookup key built by `_hint_for`:
`clean = word.strip(".,!?;:\"'()[]{}").lower()`. -/
def hint_clean (word : List Char) : List Char :=
  (pyStripChars hintPunct word).map Char.toLower

/-- The dictionary lookup performed by `_hint_for`:
`self.steno_dict.get(clean)`. -/
def hint_lookup (d : Dict) (word : List Char) : Option (List (List Char)) :=
  dlookup d (hint_clean word)

/-- The strokes of all stroke→translation entries whose normalized
translation is `t`, in encounter order. -/
def strokesFor (t : List Char) (items : List (List Char × JVal)) :
    List (List Char) :=
  items.filterMap (fun p =>
    match p.2 with
    | .jstr tr => if normalize_text tr = t then some p.1 else none
    | _ => none)

/-- Last element of a list, if any (structurally recursive). -/
def lastOption : List α → Option α
  | [] => none
  | [a] => some a
  | _ :: b :: rest => lastOption (b :: rest)

/-- The stroke list assigned by the last convertible translation→strokes
entry whose normalized key is `t`, if any. -/
def lastStrokesFor (t : List Char) (items : List (List Char × JVal)) :
    Option (List (List Char)) :=
  lastOption (items.filterMap (fun p =>
    match strokes_of_value p.2 with
    | some l => if normalize_text p.1 = t then some l else none
    | none => none))

/-- The keys of the mapping, in order. -/
def dictKeys (m : Dict) : List (List Char) := m.map Prod.fst

/-!  Practice session state machine (`PloverPracticeApp`).

Only the fields the practice logic reads or writes are embedded; label/colour
updates are pure UI output.  `random.choice` is modelled by threading an
oracle `k : Nat` and indexing `bank[k % len(bank)]`; `time.time()` by a
`now : Nat` parameter.  One Tk subtlety matters: `self.var_input.set("")`
inside `_set_current` / `_reset_session` re-fires the `on_text_change` trace,
but in both cases the handler is the identity on the embedded state (the
buffer is empty, or no current word is set), so the internal trace firing is
not modelled as a separate transition. -/

/-- `self.source_mode`: `"bank_random"` or `"quote_seq"` (the only two values
ever assigned). -/
inductive Mode where
  | bank_random
  | quote_seq
deriving DecidableEq

/-- The session-relevant fields of `PloverPracticeApp`. -/
structure AppState where
  word_bank : List (List Char)
  steno_dict : Dict
  source_mode : Mode
  quote_tokens : List (List Char)
  quote_idx : Nat
  pending_advance : Bool
  current_word : Option (List Char)
  current_started_at : Option Nat
  session_started_at : Option Nat
  total_attempts : Nat
  correct_attempts : Nat
  total_correct_chars : Nat
  streak : Nat
  best_streak : Nat
  var_input : List Char
deriving DecidableEq

/-- Python truthiness of `self.current_word` (`None` and `""` are falsy). -/
def truthyWord : Option (List Char) → Bool
  | none => false
  | some w => !w.isEmpty

/-- `self.current_word or ""`. -/
def currentOrEmpty (s : AppState) : List Char :=
  s.current_word.getD []

/-- `_set_current` from the source: install the new target, stamp its start
time, clear the typed buffer (the re-fired trace is a no-op, see above). -/
def set_current (text : List Char) (now : Nat) (s : AppState) : AppState :=
  { s with current_word := some text
         , current_started_at := some now
         , var_input := [] }

/-- `_pick_new_word_from_bank` from the source, with `random.choice`
modelled by the oracle `k`. -/
def pick_new_word_from_bank (k now : Nat) (s : AppState) : AppState :=
  if s.word_bank.isEmpty then { s with current_word := none }
  else set_current (s.word_bank.getD (k % s.word_bank.length) []) now s

/-- `advance_target` from the source. -/
def advance_target (k now : Nat) (s : AppState) : AppState :=
  let s := { s with pending_advance := false }
  match s.source_mode with
  | .quote_seq =>
      if s.quote_tokens.isEmpty then s
      else if s.quote_idx < s.quote_tokens.length - 1 then
        let s := { s with quote_idx := s.quote_idx + 1 }
        set_current (s.quote_tokens.getD s.quote_idx []) now s
      else
        { s with current_word := none }
  | .bank_random =>
      if s.word_bank.isEmpty then s
      else pick_new_word_from_bank k now s

/-- `on_next_word` (manual skip) from the source. -/
def on_next_word (k now : Nat) (s : AppState) : AppState :=
  let s := { s with pending_advance := false, streak := 0 }
  match s.source_mode with
  | .quote_seq =>
      if s.quote_tokens.isEmpty then s
      else if s.quote_idx < s.quote_tokens.length - 1 then
        let s := { s with quote_idx := s.quote_idx + 1 }
        set_current (s.quote_tokens.getD s.quote_idx []) now s
      else
        s
  | .bank_random =>
      if s.word_bank.isEmpty then s
      else
        let s := { s with session_started_at := some (s.session_started_at.getD now) }
        pick_new_word_from_bank k now s

/-- `_count_correct_and_schedule_advance` from the source. -/
def count_correct_and_schedule_advance (k now : Nat) (s : AppState) : AppState :=
  if s.pending_advance then s
  else
    let s := { s with pending_advance := true }
    let target := normalize_text (currentOrEmpty s)
    let s := { s with correct_attempts := s.correct_attempts + 1
                    , total_attempts := s.total_attempts + 1
                    , streak := s.streak + 1 }
    let s := { s with best_streak := max s.best_streak s.streak
                    , total_correct_chars := s.total_correct_chars + target.length }
    advance_target k now s

/-- `on_submit` from the source (the Enter convenience path). -/
def on_submit (k now : Nat) (s : AppState) : AppState :=
  if !truthyWord s.current_word || s.pending_advance then s
  else if normalize_text s.var_input = normalize_text (currentOrEmpty s) then
    count_correct_and_schedule_advance k now s
  else s

/-- `on_text_change` from the source: the trace handler on the current
buffer content (the empty, matching, prefix and incorrect branches; only the
matching branch changes the embedded state). -/
def on_text_change (k now : Nat) (s : AppState) : AppState :=
  if !truthyWord s.current_word then s
  else
    let typed := normalize_text s.var_input
    let target := normalize_text (currentOrEmpty s)
    if typed.isEmpty then s
    else if typed = target then count_correct_and_schedule_advance k now s
    else if typed.isPrefixOf target then s
    else s

/-- A user edit of the entry: the variable is written, then the `write`
trace runs `on_text_change`. -/
def set_input (b : List Char) (k now : Nat) (s : AppState) : AppState :=
  on_text_change k now { s with var_input := b }

/-- `restart_quote` from the source; `raw` is the text box content
(`self.txt_source.get("1.0", "end").strip()`). -/
def restart_quote (raw : List Char) (now : Nat) (s : AppState) : AppState :=
  let tokens := tokenize_source_text (pyStrip raw)
  let s := { s with quote_tokens := tokens, quote_idx := 0 }
  if tokens.isEmpty then { s with current_word := none }
  else
    let s := { s with session_started_at := some (s.session_started_at.getD now) }
    set_current (tokens.getD 0 []) now s

/-- `use_quote_mode` from the source. -/
def use_quote_mode (raw : List Char) (now : Nat) (s : AppState) : AppState :=
  restart_quote raw now { s with source_mode := .quote_seq }

/-- `use_bank_random` from the source. -/
def use_bank_random (k now : Nat) (s : AppState) : AppState :=
  let s := { s with source_mode := .bank_random }
  if s.word_bank.isEmpty then s
  else
    let s := { s with session_started_at := some (s.session_started_at.getD now) }
    pick_new_word_from_bank k now s

/-- `_maybe_start` from the source: `if self.current_word is None and
self.word_bank:` default to bank-random mode. -/
def maybe_start (k now : Nat) (s : AppState) : AppState :=
  if s.current_word = none && !s.word_bank.isEmpty then
    pick_new_word_from_bank k now
      { s with session_started_at := some now, source_mode := .bank_random }
  else s

/-- `_reset_session` from the source. -/
def reset_session (k now : Nat) (s : AppState) : AppState :=
  let s := { s with pending_advance := false
                  , current_word := none
                  , current_started_at := none
                  , session_started_at := none
                  , total_attempts := 0
                  , correct_attempts := 0
                  , total_correct_chars := 0
                  , streak := 0
                  , best_streak := 0
                  , var_input := [] }
  maybe_start k now s

/-- `on_load_word_bank` from the source, on the chosen file's lines: an
empty resulting bank raises and leaves the state unchanged. -/
def on_load_word_bank (lines : List (List Char)) (k now : Nat) (s : AppState) : AppState :=
  let words := load_word_bank lines
  if words.isEmpty then s
  else maybe_start k now { s with word_bank := words }

/-- `on_load_dict` from the source, on the parsed object's entries. -/
def on_load_dict (items : List (List Char × JVal)) (s : AppState) : AppState :=
  { s with steno_dict := load_dictionary items }

/-- `_autoload_last_files` from the source: best-effort installs of the
remembered bank and dictionary (no emptiness check on the bank), then
`_maybe_start`. -/
def autoload_last_files (bank : Option (List (List Char)))
    (dict : Option (List (List Char × JVal))) (k now : Nat) (s : AppState) : AppState :=
  let s := match bank with
           | some lines => { s with word_bank := load_word_bank lines }
           | none => s
  let s := match dict with
           | some items => { s with steno_dict := load_dictionary items }
           | none => s
  maybe_start k now s

/-- The external events that drive the app, with oracles for randomness,
time, and file/keyboard input. -/
inductive Event where
  | eSetInput (b : List Char) (k now : Nat)
  | eSubmit (k now : Nat)
  | eNextWord (k now : Nat)
  | eRestartQuote (raw : List Char) (now : Nat)
  | eUseQuoteMode (raw : List Char) (now : Nat)
  | eUseBankRandom (k now : Nat)
  | eLoadWordBank (lines : List (List Char)) (k now : Nat)
  | eLoadDict (items : List (List Char × JVal))
  | eReset (k now : Nat)
  | eAutoload (bank : Option (List (List Char)))
      (dict : Option (List (List Char × JVal))) (k now : Nat)

/-- One event-handler dispatch. -/
def step (e : Event) (s : AppState) : AppState :=
  match e with
  | .eSetInput b k now => set_input b k now s
  | .eSubmit k now => on_submit k now s
  | .eNextWord k now => on_next_word k now s
  | .eRestartQuote raw now => restart_quote raw now s
  | .eUseQuoteMode raw now => use_quote_mode raw now s
  | .eUseBankRandom k now => use_bank_random k now s
  | .eLoadWordBank lines k now => on_load_word_bank lines k now s
  | .eLoadDict items => on_load_dict items s
  | .eReset k now => reset_session k now s
  | .eAutoload bank dict k now => autoload_last_files bank dict k now s

/-- The state right after `__init__` (before `_autoload_last_files`, which is
itself an `eAutoload` event). -/
def initState : AppState :=
  { word_bank := []
  , steno_dict := []
  , source_mode := .bank_random
  , quote_tokens := []
  , quote_idx := 0
  , pending_advance := false
  , current_word := none
  , current_started_at := none
  , session_started_at := none
  , total_attempts := 0
  , correct_attempts := 0
  , total_correct_chars := 0
  , streak := 0
  , best_streak := 0
  , var_input := [] }

/-- States reachable from startup by event-handler dispatches. -/
inductive Reachable : AppState → Prop where
  | init : Reachable initState
  | step (e : Event) {s : AppState} : Reachable s → Reachable (step e s)

/-!  Stats aggregator. -/

/-- Python 3 `round` on an exact rational: round half to even. -/
def pyRound (q : ℚ) : ℤ :=
  let f : ℤ := ⌊q⌋
  let r : ℚ := q - f
  if r < 1/2 then f
  else if 1/2 < r then f + 1
  else if f % 2 = 0 then f else f + 1

/-- `_compute_accuracy` from the source, with the float arithmetic read as
exact rational arithmetic:
`int(round(100.0 * (self.correct_attempts / self.total_attempts)))`,
and `0` when `total_attempts == 0`. -/
def compute_accuracy (s : AppState) : ℤ :=
  if s.total_attempts = 0 then 0
  else pyRound (100 * ((s.correct_attempts : ℚ) / (s.total_attempts : ℚ)))

/-!  Spec-side notions and concrete inputs used by the claims. -/

/-- The spec's wording of "stroke-shaped": every character is a letter, a
digit, `-`, `/` or `*`, and at least one of the three separators occurs. -/
def StrokeShapedSpec (s : List Char) : Prop :=
  (∀ c ∈ s, c.isAlpha = true ∨ c.isDigit = true ∨ c = '-' ∨ c = '/' ∨ c = '*') ∧
  (∃ c ∈ s, c = '-' ∨ c = '/' ∨ c = '*')

/-- The events exempted by the cursor claims: an explicit quote restart
(directly, or via switching to quote mode, which calls `restart_quote`). -/
def isRestartEvent : Event → Bool
  | .eRestartQuote _ _ => true
  | .eUseQuoteMode _ _ => true
  | _ => false

/-- The entries of `{"message": ["PHEPBLG"], "cellular": "KREL/HRER"}`. -/
def c4_direct : List (List Char × JVal) :=
  [(['m','e','s','s','a','g','e'], JVal.jlist [JVal.jstr ['P','H','E','P','B','L','G']]),
   (['c','e','l','l','u','l','a','r'], JVal.jstr ['K','R','E','L','/','H','R','E','R'])]

/-- The entries of `{"PHEPBLG": "message", "KREL/HRER": "cellular"}`. -/
def c4_inverted : List (List Char × JVal) :=
  [(['P','H','E','P','B','L','G'], JVal.jstr ['m','e','s','s','a','g','e']),
   (['K','R','E','L','/','H','R','E','R'], JVal.jstr ['c','e','l','l','u','l','a','r'])]

/-- The mapping `{"message": ["PHEPBLG"], "cellular": ["KREL/HRER"]}`. -/
def c4_expected : Dict :=
  [(['m','e','s','s','a','g','e'], [['P','H','E','P','B','L','G']]),
   (['c','e','l','l','u','l','a','r'], [['K','R','E','L','/','H','R','E','R']])]

/-- Entries of a stroke-keyed object whose two strokes share one
translation: `{"A-B": "x y", "C/D": "x y"}`. -/
def c3_items : List (List Char × JVal) :=
  [(['A','-','B'], JVal.jstr ['x',' ','y']),
   (['C','/','D'], JVal.jstr ['x',' ','y'])]

/-- Entries of `{"a b": "X", "a  b": "Y"}`: two distinct raw keys with the
same normalized translation, in the translation→strokes orientation. -/
def c10_items : List (List Char × JVal) :=
  [(['a',' ','b'], JVal.jstr ['X']),
   (['a',' ',' ','b'], JVal.jstr ['Y'])]

/-- Entries of `{"Message": ["PHEPBLG"]}`: a capitalized translation key. -/
def c7_items : List (List Char × JVal) :=
  [(['M','e','s','s','a','g','e'], JVal.jlist [JVal.jstr ['P','H','E','P','B','L','G']])]

/-- Entries of `{"a  b": "X"}`: a translation key with doubled whitespace. -/
def c7w_items : List (List Char × JVal) :=
  [(['a',' ',' ','b'], JVal.jstr ['X'])]

/-- A bank-random session with Target `"cat"` awaiting input. -/
def bank_cat_state : AppState :=
  { initState with
      word_bank := [['c','a','t']]
      source_mode := .bank_random
      current_word := some ['c','a','t'] }

/-- A bank-random session with Target `"a b"` awaiting input. -/
def bank_ab_state : AppState :=
  { initState with
      word_bank := [['a',' ','b']]
      source_mode := .bank_random
      current_word := some ['a',' ','b'] }

/-- A quote-sequential session at the last (only) token `"cat"`. -/
def quote_end_state : AppState :=
  { initState with
      source_mode := .quote_seq
      quote_tokens := [['c','a','t']]
      quote_idx := 0
      current_word := some ['c','a','t'] }

/-- The same quote-end session with the matching text `"cat"` typed, as seen
by the correct-attempt transition right before it advances. -/
def quote_end_typed_state : AppState :=
  { initState with
      source_mode := .quote_seq
      quote_tokens := [['c','a','t']]
      quote_idx := 0
      current_word := some ['c','a','t']
      var_input := ['c','a','t'] }

/-- A quote-sequential session whose token sequence `["a", "b"]` has been
exhausted (Target cleared, cursor at the last token). -/
def quote_exhausted_state : AppState :=
  { initState with
      source_mode := .quote_seq
      quote_tokens := [['a'], ['b']]
      quote_idx := 1
      current_word := none }

/-- The session reached from startup by loading the one-word bank `cat` and
then typing `cat`. -/
def c8_state : AppState :=
  step (Event.eSetInput ['c','a','t'] 0 1)
    (step (Event.eLoadWordBank [['c','a','t']] 0 0) initState)

/-!  Lemmas about the text normalizer. -/

theorem pySplitAux_ws_nil (t : List Char) (h : ∀ c ∈ t, isWs c = true) :
    pySplitAux t [] = [] := by
  induction t with
  | nil => rfl
  | cons c cs ih =>
    have hc : isWs c = true := h c (by simp)
    simp only [pySplitAux, hc, if_true, List.isEmpty_nil, if_pos]
    exact ih (fun d hd => h d (by simp [hd]))

theorem pySplitAux_all_ws (t : List Char) (h : ∀ c ∈ t, isWs c = true)
    (acc : List Char) :
    pySplitAux t acc = if acc.isEmpty then [] else [acc.reverse] := by
  cases t with
  | nil => rfl
  | cons c cs =>
    have hc : isWs c = true := h c (by simp)
    have hcs : ∀ d ∈ cs, isWs d = true := fun d hd => h d (by simp [hd])
    by_cases ha : acc.isEmpty <;>
      simp [pySplitAux, hc, ha, pySplitAux_ws_nil cs hcs]

theorem pySplitAux_append_ws (t : List Char) (h : ∀ c ∈ t, isWs c = true)
    (s acc : List Char) : pySplitAux (s ++ t) acc = pySplitAux s acc := by
  induction s generalizing acc with
  | nil => simpa [pySplitAux] using pySplitAux_all_ws t h acc
  | cons c cs ih =>
    by_cases hc : isWs c <;> by_cases ha : acc.isEmpty <;>
      simp [pySplitAux, hc, ha, ih]

theorem pySplit_dropWhile_ws (s : List Char) :
    pySplit (s.dropWhile isWs) = pySplit s := by
  induction s with
  | nil => rfl
  | cons c cs ih =>
    by_cases hc : isWs c
    · simpa [List.dropWhile_cons, hc, pySplit, pySplitAux] using ih
    · simp [List.dropWhile_cons, hc]

theorem pySplit_append_ws (u t : List Char) (h : ∀ c ∈ t, isWs c = true) :
    pySplit (u ++ t) = pySplit u :=
  pySplitAux_append_ws t h u []

theorem pyStrip_split (s : List Char) : pySplit (pyStrip s) = pySplit s := by
  have key : ∀ u : List Char,
      pySplit (u.reverse.dropWhile isWs).reverse = pySplit u := by
    intro u
    have hdecomp :
        (u.reverse.dropWhile isWs).reverse ++ (u.reverse.takeWhile isWs).reverse
          = u := by
      rw [← List.reverse_append, List.takeWhile_append_dropWhile,
        List.reverse_reverse]
    have hws : ∀ c ∈ (u.reverse.takeWhile isWs).reverse, isWs c = true := by
      intro c hc
      rw [List.mem_reverse] at hc
      exact List.mem_takeWhile_imp hc
    calc pySplit (u.reverse.dropWhile isWs).reverse
        = pySplit ((u.reverse.dropWhile isWs).reverse
            ++ (u.reverse.takeWhile isWs).reverse) :=
          (pySplit_append_ws _ _ hws).symm
      _ = pySplit u := by rw [hdecomp]
  unfold pyStrip
  rw [key, pySplit_dropWhile_ws]

theorem pySplitAux_chunks (s : List Char) :
    ∀ acc, (∀ c ∈ acc, isWs c = false) →
      ∀ u ∈ pySplitAux s acc, u ≠ [] ∧ ∀ c ∈ u, isWs c = false := by
  induction s with
  | nil =>
    intro acc hacc u hu
    by_cases ha : acc.isEmpty
    · simp [pySplitAux, ha] at hu
    · simp only [pySplitAux, ha, if_neg, Bool.false_eq_true,
        not_false_iff, List.mem_singleton] at hu
      subst hu
      refine ⟨?_, ?_⟩
      · intro hnil
        rw [List.isEmpty_iff] at ha
        exact ha (by simpa using congrArg List.reverse hnil)
      · intro c hc
        exact hacc c (List.mem_reverse.mp hc)
  | cons c cs ih =>
    intro acc hacc u hu
    by_cases hc : isWs c
    · by_cases ha : acc.isEmpty
      · rw [show pySplitAux (c :: cs) acc = pySplitAux cs [] by
          simp [pySplitAux, hc, ha]] at hu
        exact ih [] (by simp) u hu
      · rw [show pySplitAux (c :: cs) acc = acc.reverse :: pySplitAux cs [] by
          simp [pySplitAux, hc, ha]] at hu
        rcases List.mem_cons.mp hu with h | h
        · subst h
          refine ⟨?_, ?_⟩
          · intro hnil
            rw [List.isEmpty_iff] at ha
            exact ha (by simpa using congrArg List.reverse hnil)
          · intro d hd
            exact hacc d (List.mem_reverse.mp hd)
        · exact ih [] (by simp) u h
    · rw [show pySplitAux (c :: cs) acc = pySplitAux cs (c :: acc) by
        simp [pySplitAux, hc]] at hu
      refine ih (c :: acc) ?_ u hu
      intro d hd
      rcases List.mem_cons.mp hd with h | h
      · subst h; simpa using hc
      · exact hacc d h

theorem pySplit_chunks (s : List Char) :
    ∀ u ∈ pySplit s, u ≠ [] ∧ ∀ c ∈ u, isWs c = false :=
  pySplitAux_chunks s [] (by simp)

theorem pySplitAux_consume (u : List Char) (hu : ∀ c ∈ u, isWs c = false) :
    ∀ (rest acc : List Char),
      pySplitAux (u ++ rest) acc = pySplitAux rest (u.reverse ++ acc) := by
  induction u with
  | nil => intro rest acc; simp
  | cons c cs ih =>
    intro rest acc
    have hc : isWs c = false := hu c (by simp)
    show pySplitAux (c :: (cs ++ rest)) acc = _
    rw [show pySplitAux (c :: (cs ++ rest)) acc
        = pySplitAux (cs ++ rest) (c :: acc) by simp [pySplitAux, hc]]
    rw [ih (fun d hd => hu d (by simp [hd])) rest (c :: acc)]
    simp

theorem pySplit_joinSpace (ws : List (List Char))
    (h : ∀ u ∈ ws, u ≠ [] ∧ ∀ c ∈ u, isWs c = false) :
    pySplit (joinSpace ws) = ws := by
  induction ws with
  | nil => rfl
  | cons u rest ih =>
    cases rest with
    | nil =>
      have hu := h u (by simp)
      show pySplit (joinSpace [u]) = [u]
      have h1 : joinSpace [u] = u ++ [] := by simp [joinSpace]
      rw [h1, pySplit, pySplitAux_consume u hu.2 [] []]
      simp [pySplitAux, hu.1]
    | cons v rest' =>
      have hu := h u (by simp)
      have hrest : ∀ x ∈ v :: rest', x ≠ [] ∧ ∀ c ∈ x, isWs c = false :=
        fun x hx => h x (by simp [hx])
      show pySplit (u ++ ' ' :: joinSpace (v :: rest')) = u :: v :: rest'
      rw [pySplit, pySplitAux_consume u hu.2]
      rw [show pySplitAux (' ' :: joinSpace (v :: rest')) (u.reverse ++ [])
          = u :: pySplitAux (joinSpace (v :: rest')) [] by
        simp [pySplitAux, isWs, hu.1]]
      have h2 := ih hrest
      rw [pySplit] at h2
      rw [h2]

theorem normalize_text_idem (s : List Char) :
    normalize_text (normalize_text s) = normalize_text s := by
  show joinSpace (pySplit (pyStrip (joinSpace (pySplit (pyStrip s)))))
      = joinSpace (pySplit (pyStrip s))
  rw [pyStrip_split, pySplit_joinSpace _ (pySplit_chunks (pyStrip s))]

theorem normalize_text_nil : normalize_text [] = [] := rfl

/-!  Lemmas about the dictionary loader. -/

theorem lastOption_cons (a : α) (l : List α) :
    lastOption (a :: l) = (lastOption l).or (some a) := by
  cases l with
  | nil => rfl
  | cons b rest =>
    show lastOption (b :: rest) = _
    cases h : lastOption (b :: rest) with
    | none =>
      exfalso
      induction rest generalizing b with
      | nil => simp [lastOption] at h
      | cons c rest' ih => exact ih c (by simpa [lastOption] using h)
    | some x => rfl

theorem dlookup_dictAppend (m : Dict) (t x : List Char) (q : List Char) :
    dlookup (dictAppend m t x) q =
      if q = t then some ((dlookup m t).getD [] ++ [x]) else dlookup m q := by
  induction m with
  | nil =>
    rcases eq_or_ne q t with h | h
    · subst h; simp [dictAppend, dlookup]
    · simp [dictAppend, dlookup, h, h.symm]
  | cons p rest ih =>
    obtain ⟨k, w⟩ := p
    rcases eq_or_ne k t with hk | hk
    · subst hk
      rcases eq_or_ne q k with hq | hq
      · subst hq; simp [dictAppend, dlookup]
      · simp [dictAppend, dlookup, hq, hq.symm]
    · rcases eq_or_ne q t with hq | hq
      · subst hq
        simp [dictAppend, dlookup, hk, hk.symm, ih]
      · rcases eq_or_ne k q with hkq | hkq
        · subst hkq
          simp [dictAppend, dlookup, hk, hq]
        · simp [dictAppend, dlookup, hk, hq, hkq, ih]

theorem dlookup_dictInsert (m : Dict) (t : List Char) (v : List (List Char))
    (q : List Char) :
    dlookup (dictInsert m t v) q = if q = t then some v else dlookup m q := by
  induction m with
  | nil =>
    rcases eq_or_ne q t with h | h
    · subst h; simp [dictInsert, dlookup]
    · simp [dictInsert, dlookup, h, h.symm]
  | cons p rest ih =>
    obtain ⟨k, w⟩ := p
    rcases eq_or_ne k t with hk | hk
    · subst hk
      rcases eq_or_ne q k with hq | hq
      · subst hq; simp [dictInsert, dlookup]
      · simp [dictInsert, dlookup, hq, hq.symm]
    · rcases eq_or_ne q t with hq | hq
      · subst hq
        simp [dictInsert, dlookup, hk, hk.symm, ih]
      · rcases eq_or_ne k q with hkq | hkq
        · subst hkq
          simp [dictInsert, dlookup, hk, hq]
        · simp [dictInsert, dlookup, hk, hq, hkq, ih]

theorem invertLoop_lookup (items : List (List Char × JVal)) (out : Dict)
    (t : List Char) :
    dlookup (invertLoop items out) t =
      match dlookup out t with
      | some l => some (l ++ strokesFor t items)
      | none =>
          if strokesFor t items = [] then none else some (strokesFor t items) := by
  induction items generalizing out with
  | nil =>
    cases h : dlookup out t <;> simp [invertLoop, strokesFor, h]
  | cons p rest ih =>
    obtain ⟨stroke, v⟩ := p
    cases v with
    | jstr tr =>
      show dlookup (invertLoop rest (dictAppend out (normalize_text tr) stroke)) t = _
      rw [ih]
      rw [dlookup_dictAppend]
      rcases eq_or_ne (normalize_text tr) t with ht | ht
      · have hs : strokesFor t ((stroke, JVal.jstr tr) :: rest)
            = stroke :: strokesFor t rest := by
          simp [strokesFor, List.filterMap_cons, ht]
        rw [hs, if_pos ht.symm, ht]
        cases h : dlookup out t <;> simp [h]
      · have hs : strokesFor t ((stroke, JVal.jstr tr) :: rest)
            = strokesFor t rest := by
          simp [strokesFor, List.filterMap_cons, ht]
        rw [hs, if_neg ht.symm]
    | jlist xs =>
      show dlookup (invertLoop rest out) t = _
      rw [ih]
      have hs : strokesFor t ((stroke, JVal.jlist xs) :: rest)
          = strokesFor t rest := by simp [strokesFor]
      rw [hs]
    | jother =>
      show dlookup (invertLoop rest out) t = _
      rw [ih]
      have hs : strokesFor t ((stroke, JVal.jother) :: rest)
          = strokesFor t rest := by simp [strokesFor]
      rw [hs]

theorem directLoop_lookup (items : List (List Char × JVal)) (out : Dict)
    (t : List Char) :
    dlookup (directLoop items out) t =
      (lastStrokesFor t items).or (dlookup out t) := by
  induction items generalizing out with
  | nil => simp [directLoop, lastStrokesFor, lastOption]
  | cons p rest ih =>
    obtain ⟨translation, v⟩ := p
    cases hv : strokes_of_value v with
    | some l =>
      rw [show directLoop ((translation, v) :: rest) out
          = directLoop rest (dictInsert out (normalize_text translation) l) by
        simp [directLoop, hv]]
      rw [ih]
      rcases eq_or_ne (normalize_text translation) t with ht | ht
      · have hs : lastStrokesFor t ((translation, v) :: rest)
            = (lastStrokesFor t rest).or (some l) := by
          simp only [lastStrokesFor, List.filterMap_cons, hv, ht,
            eq_self_iff_true, if_true]
          exact lastOption_cons l _
        rw [hs, dlookup_dictInsert, if_pos ht.symm]
        cases h : lastStrokesFor t rest <;> simp [h, Option.or]
      · have hs : lastStrokesFor t ((translation, v) :: rest)
            = lastStrokesFor t rest := by
          simp [lastStrokesFor, List.filterMap_cons, hv, ht]
        rw [hs, dlookup_dictInsert, if_neg ht.symm]
    | none =>
      rw [show directLoop ((translation, v) :: rest) out
          = directLoop rest out by simp [directLoop, hv]]
      rw [ih]
      have hs : lastStrokesFor t ((translation, v) :: rest)
          = lastStrokesFor t rest := by
        simp [lastStrokesFor, List.filterMap_cons, hv]
      rw [hs]

theorem mem_dictKeys_dictAppend (m : Dict) (t x q : List Char)
    (h : q ∈ dictKeys (dictAppend m t x)) : q ∈ dictKeys m ∨ q = t := by
  induction m with
  | nil => simpa [dictAppend, dictKeys, or_comm] using h
  | cons p rest ih =>
    obtain ⟨k, w⟩ := p
    by_cases hk : k = t
    · subst hk
      exact Or.inl (by simpa [dictAppend, dictKeys] using h)
    · rcases (by simpa [dictAppend, dictKeys, hk] using h :
        q = k ∨ q ∈ dictKeys (dictAppend rest t x)) with h1 | h1
      · exact Or.inl (by simp [dictKeys, h1])
      · rcases ih h1 with h2 | h2
        · refine Or.inl ?_
          simp only [dictKeys, List.map_cons, List.mem_cons]
          exact Or.inr h2
        · exact Or.inr h2

theorem mem_dictKeys_dictInsert (m : Dict) (t : List Char)
    (v : List (List Char)) (q : List Char)
    (h : q ∈ dictKeys (dictInsert m t v)) : q ∈ dictKeys m ∨ q = t := by
  induction m with
  | nil => simpa [dictInsert, dictKeys, or_comm] using h
  | cons p rest ih =>
    obtain ⟨k, w⟩ := p
    by_cases hk : k = t
    · subst hk
      exact Or.inl (by simpa [dictInsert, dictKeys] using h)
    · rcases (by simpa [dictInsert, dictKeys, hk] using h :
        q = k ∨ q ∈ dictKeys (dictInsert rest t v)) with h1 | h1
      · exact Or.inl (by simp [dictKeys, h1])
      · rcases ih h1 with h2 | h2
        · refine Or.inl ?_
          simp only [dictKeys, List.map_cons, List.mem_cons]
          exact Or.inr h2
        · exact Or.inr h2

theorem invertLoop_keys_normalized (items : List (List Char × JVal))
    (out : Dict) (hout : ∀ q ∈ dictKeys out, normalize_text q = q) :
    ∀ q ∈ dictKeys (invertLoop items out), normalize_text q = q := by
  induction items generalizing out with
  | nil => exact hout
  | cons p rest ih =>
    obtain ⟨stroke, v⟩ := p
    cases v with
    | jstr tr =>
      refine ih (dictAppend out (normalize_text tr) stroke) ?_
      intro q hq
      rcases mem_dictKeys_dictAppend out _ _ q hq with h | h
      · exact hout q h
      · subst h; exact normalize_text_idem tr
    | jlist xs => exact ih out hout
    | jother => exact ih out hout

theorem directLoop_keys_normalized (items : List (List Char × JVal))
    (out : Dict) (hout : ∀ q ∈ dictKeys out, normalize_text q = q) :
    ∀ q ∈ dictKeys (directLoop items out), normalize_text q = q := by
  induction items generalizing out with
  | nil => exact hout
  | cons p rest ih =>
    obtain ⟨translation, v⟩ := p
    cases hv : strokes_of_value v with
    | some l =>
      rw [show directLoop ((translation, v) :: rest) out
          = directLoop rest (dictInsert out (normalize_text translation) l) by
        simp [directLoop, hv]]
      refine ih (dictInsert out (normalize_text translation) l) ?_
      intro q hq
      rcases mem_dictKeys_dictInsert out _ _ q hq with h | h
      · exact hout q h
      · subst h; exact normalize_text_idem translation
    | none =>
      rw [show directLoop ((translation, v) :: rest) out
          = directLoop rest out by simp [directLoop, hv]]
      exact ih out hout

/-!  Frame lemmas for the session operations. -/

theorem advance_target_frame (k now : Nat) (s : AppState) :
    (advance_target k now s).total_attempts = s.total_attempts ∧
    (advance_target k now s).correct_attempts = s.correct_attempts ∧
    (advance_target k now s).total_correct_chars = s.total_correct_chars ∧
    (advance_target k now s).streak = s.streak ∧
    (advance_target k now s).best_streak = s.best_streak ∧
    (advance_target k now s).word_bank = s.word_bank ∧
    (advance_target k now s).quote_tokens = s.quote_tokens ∧
    (advance_target k now s).source_mode = s.source_mode ∧
    (advance_target k now s).pending_advance = false := by
  unfold advance_target pick_new_word_from_bank set_current
  cases s.source_mode <;> dsimp only <;> repeat' split <;> simp_all

theorem on_next_word_frame (k now : Nat) (s : AppState) :
    (on_next_word k now s).total_attempts = s.total_attempts ∧
    (on_next_word k now s).correct_attempts = s.correct_attempts ∧
    (on_next_word k now s).total_correct_chars = s.total_correct_chars ∧
    (on_next_word k now s).best_streak = s.best_streak ∧
    (on_next_word k now s).word_bank = s.word_bank ∧
    (on_next_word k now s).quote_tokens = s.quote_tokens ∧
    (on_next_word k now s).source_mode = s.source_mode ∧
    (on_next_word k now s).streak = 0 ∧
    (on_next_word k now s).pending_advance = false := by
  unfold on_next_word pick_new_word_from_bank set_current
  cases s.source_mode <;> dsimp only <;> repeat' split <;> simp_all

theorem count_correct_effect (k now : Nat) (s : AppState)
    (h : s.pending_advance = false) :
    count_correct_and_schedule_advance k now s
      = advance_target k now
          { s with pending_advance := true
                 , correct_attempts := s.correct_attempts + 1
                 , total_attempts := s.total_attempts + 1
                 , streak := s.streak + 1
                 , best_streak := max s.best_streak (s.streak + 1)
                 , total_correct_chars := s.total_correct_chars
                     + (normalize_text (currentOrEmpty s)).length } := by
  unfold count_correct_and_schedule_advance
  rw [if_neg (by simp [h])]
  rfl

theorem count_correct_counters (k now : Nat) (s : AppState)
    (h : s.pending_advance = false) :
    (count_correct_and_schedule_advance k now s).total_attempts
        = s.total_attempts + 1 ∧
    (count_correct_and_schedule_advance k now s).correct_attempts
        = s.correct_attempts + 1 ∧
    (count_correct_and_schedule_advance k now s).streak = s.streak + 1 ∧
    (count_correct_and_schedule_advance k now s).best_streak
        = max s.best_streak (s.streak + 1) ∧
    (count_correct_and_schedule_advance k now s).total_correct_chars
        = s.total_correct_chars + (normalize_text (currentOrEmpty s)).length := by
  rw [count_correct_effect k now s h]
  have hf := advance_target_frame k now
    { s with pending_advance := true
           , correct_attempts := s.correct_attempts + 1
           , total_attempts := s.total_attempts + 1
           , streak := s.streak + 1
           , best_streak := max s.best_streak (s.streak + 1)
           , total_correct_chars := s.total_correct_chars
               + (normalize_text (currentOrEmpty s)).length }
  exact ⟨hf.1, hf.2.1, hf.2.2.2.1, hf.2.2.2.2.1, hf.2.2.1⟩

theorem restart_quote_counters (raw : List Char) (now : Nat) (s : AppState) :
    (restart_quote raw now s).total_attempts = s.total_attempts ∧
    (restart_quote raw now s).correct_attempts = s.correct_attempts := by
  unfold restart_quote set_current
  dsimp only
  repeat' split <;> simp_all

theorem use_bank_random_counters (k now : Nat) (s : AppState) :
    (use_bank_random k now s).total_attempts = s.total_attempts ∧
    (use_bank_random k now s).correct_attempts = s.correct_attempts := by
  unfold use_bank_random pick_new_word_from_bank set_current
  dsimp only
  repeat' split <;> simp_all

theorem maybe_start_counters (k now : Nat) (s : AppState) :
    (maybe_start k now s).total_attempts = s.total_attempts ∧
    (maybe_start k now s).correct_attempts = s.correct_attempts := by
  unfold maybe_start pick_new_word_from_bank set_current
  dsimp only
  repeat' split <;> simp_all

/-!  Counter-evolution lemmas and the reachability invariant. -/

theorem on_text_change_counters (k now : Nat) (s : AppState) :
    ((on_text_change k now s).total_attempts = s.total_attempts ∧
     (on_text_change k now s).correct_attempts = s.correct_attempts) ∨
    ((on_text_change k now s).total_attempts = s.total_attempts + 1 ∧
     (on_text_change k now s).correct_attempts = s.correct_attempts + 1) := by
  unfold on_text_change
  dsimp only
  split
  · exact Or.inl ⟨rfl, rfl⟩
  · split
    · exact Or.inl ⟨rfl, rfl⟩
    · split
      · cases hp : s.pending_advance with
        | true =>
          left
          unfold count_correct_and_schedule_advance
          rw [if_pos hp]
          exact ⟨rfl, rfl⟩
        | false =>
          right
          have h := count_correct_counters k now s hp
          exact ⟨h.1, h.2.1⟩
      · split
        · exact Or.inl ⟨rfl, rfl⟩
        · exact Or.inl ⟨rfl, rfl⟩

theorem on_submit_counters (k now : Nat) (s : AppState) :
    ((on_submit k now s).total_attempts = s.total_attempts ∧
     (on_submit k now s).correct_attempts = s.correct_attempts) ∨
    ((on_submit k now s).total_attempts = s.total_attempts + 1 ∧
     (on_submit k now s).correct_attempts = s.correct_attempts + 1) := by
  unfold on_submit
  split
  · exact Or.inl ⟨rfl, rfl⟩
  · split
    · cases hp : s.pending_advance with
      | true =>
        left
        unfold count_correct_and_schedule_advance
        rw [if_pos hp]
        exact ⟨rfl, rfl⟩
      | false =>
        right
        have h := count_correct_counters k now s hp
        exact ⟨h.1, h.2.1⟩
    · exact Or.inl ⟨rfl, rfl⟩

theorem reset_session_counters (k now : Nat) (s : AppState) :
    (reset_session k now s).total_attempts = 0 ∧
    (reset_session k now s).correct_attempts = 0 := by
  unfold reset_session
  dsimp only
  exact ⟨(maybe_start_counters k now _).1, (maybe_start_counters k now _).2⟩

theorem on_load_word_bank_counters (lines : List (List Char)) (k now : Nat)
    (s : AppState) :
    (on_load_word_bank lines k now s).total_attempts = s.total_attempts ∧
    (on_load_word_bank lines k now s).correct_attempts = s.correct_attempts := by
  unfold on_load_word_bank
  dsimp only
  split
  · exact ⟨rfl, rfl⟩
  · exact ⟨(maybe_start_counters k now _).1, (maybe_start_counters k now _).2⟩

theorem autoload_counters (bank : Option (List (List Char)))
    (dict : Option (List (List Char × JVal))) (k now : Nat) (s : AppState) :
    (autoload_last_files bank dict k now s).total_attempts = s.total_attempts ∧
    (autoload_last_files bank dict k now s).correct_attempts
      = s.correct_attempts := by
  unfold autoload_last_files
  cases bank <;> cases dict <;> dsimp only <;>
    exact ⟨(maybe_start_counters k now _).1, (maybe_start_counters k now _).2⟩

theorem step_correct_le_total (e : Event) (s : AppState)
    (h : s.correct_attempts ≤ s.total_attempts) :
    (step e s).correct_attempts ≤ (step e s).total_attempts := by
  cases e with
  | eSetInput b k now =>
    rcases on_text_change_counters k now { s with var_input := b } with
      ⟨h1, h2⟩ | ⟨h1, h2⟩ <;>
    · show (on_text_change k now { s with var_input := b }).correct_attempts
          ≤ (on_text_change k now { s with var_input := b }).total_attempts
      rw [h1, h2]
      dsimp only
      omega
  | eSubmit k now =>
    rcases on_submit_counters k now s with ⟨h1, h2⟩ | ⟨h1, h2⟩ <;>
    · show (on_submit k now s).correct_attempts ≤ (on_submit k now s).total_attempts
      rw [h1, h2]
      omega
  | eNextWord k now =>
    have hf := on_next_word_frame k now s
    show (on_next_word k now s).correct_attempts ≤ (on_next_word k now s).total_attempts
    rw [hf.1, hf.2.1]
    exact h
  | eRestartQuote raw now =>
    have hf := restart_quote_counters raw now s
    show (restart_quote raw now s).correct_attempts ≤ (restart_quote raw now s).total_attempts
    rw [hf.1, hf.2]
    exact h
  | eUseQuoteMode raw now =>
    have hf := restart_quote_counters raw now { s with source_mode := .quote_seq }
    show (restart_quote raw now { s with source_mode := .quote_seq }).correct_attempts
        ≤ (restart_quote raw now { s with source_mode := .quote_seq }).total_attempts
    rw [hf.1, hf.2]
    exact h
  | eUseBankRandom k now =>
    have hf := use_bank_random_counters k now s
    show (use_bank_random k now s).correct_attempts ≤ (use_bank_random k now s).total_attempts
    rw [hf.1, hf.2]
    exact h
  | eLoadWordBank lines k now =>
    have hf := on_load_word_bank_counters lines k now s
    show (on_load_word_bank lines k now s).correct_attempts
        ≤ (on_load_word_bank lines k now s).total_attempts
    rw [hf.1, hf.2]
    exact h
  | eLoadDict items => exact h
  | eReset k now =>
    have hf := reset_session_counters k now s
    show (reset_session k now s).correct_attempts ≤ (reset_session k now s).total_attempts
    rw [hf.1, hf.2]
  | eAutoload bank dict k now =>
    have hf := autoload_counters bank dict k now s
    show (autoload_last_files bank dict k now s).correct_attempts
        ≤ (autoload_last_files bank dict k now s).total_attempts
    rw [hf.1, hf.2]
    exact h

theorem reachable_correct_le_total (s : AppState) (h : Reachable s) :
    s.correct_attempts ≤ s.total_attempts := by
  induction h with
  | init => exact Nat.le_refl 0
  | step e hr ih => exact step_correct_le_total e _ ih

/-!  Bounds on the rounded accuracy. -/

theorem pyRound_nonneg (q : ℚ) (hq : 0 ≤ q) : 0 ≤ pyRound q := by
  unfold pyRound
  have hf : (0:ℤ) ≤ ⌊q⌋ := Int.floor_nonneg.mpr hq
  dsimp only
  split
  · exact hf
  · split
    · omega
    · split <;> omega

theorem pyRound_le_100 (q : ℚ) (hq : q ≤ 100) : pyRound q ≤ 100 := by
  unfold pyRound
  dsimp only
  have hf : ⌊q⌋ ≤ 100 := by
    have h1 : ⌊q⌋ ≤ ⌊((100:ℤ):ℚ)⌋ := Int.floor_le_floor (by exact_mod_cast hq)
    simpa using h1
  split
  · exact hf
  · have h2 : (1:ℚ)/2 ≤ q - ⌊q⌋ := by
      rename_i hlt
      exact not_lt.mp hlt
    have h3 : (⌊q⌋:ℚ) ≤ q - 1/2 := by linarith
    have h5 : ⌊q⌋ ≤ 99 := by
      by_contra hcon
      push_neg at hcon
      have h6 : (100:ℚ) ≤ (⌊q⌋:ℚ) := by exact_mod_cast hcon
      linarith
    split
    · omega
    · split <;> omega

theorem compute_accuracy_bounds (s : AppState)
    (h : s.correct_attempts ≤ s.total_attempts) :
    0 ≤ compute_accuracy s ∧ compute_accuracy s ≤ 100 := by
  unfold compute_accuracy
  split
  · exact ⟨le_refl 0, by norm_num⟩
  · rename_i ht
    have htpos : 0 < (s.total_attempts : ℚ) := by
      have := Nat.pos_of_ne_zero ht
      exact_mod_cast this
    have hq0 : 0 ≤ 100 * ((s.correct_attempts:ℚ) / (s.total_attempts:ℚ)) := by
      positivity
    have hdiv : (s.correct_attempts:ℚ) / (s.total_attempts:ℚ) ≤ 1 := by
      rw [div_le_one htpos]
      exact_mod_cast h
    have hq100 : 100 * ((s.correct_attempts:ℚ) / (s.total_attempts:ℚ)) ≤ 100 := by
      linarith
    exact ⟨pyRound_nonneg _ hq0, pyRound_le_100 _ hq100⟩

/-!  Shape lemmas for firing and advancing. -/

theorem currentOrEmpty_eq (s : AppState) (w : List Char)
    (hcw : s.current_word = some w) : currentOrEmpty s = w := by
  unfold currentOrEmpty
  rw [hcw]
  rfl

theorem truthyWord_some (w : List Char) (hw : w ≠ []) :
    truthyWord (some w) = true := by
  cases w with
  | nil => exact absurd rfl hw
  | cons a t => rfl

theorem ne_nil_of_normalize_ne_nil (w : List Char) (hw : normalize_text w ≠ []) :
    w ≠ [] :=
  fun hnil => hw (by rw [hnil]; rfl)

theorem on_text_change_fire (k now : Nat) (s : AppState) (w : List Char)
    (hcw : s.current_word = some w) (hw : normalize_text w ≠ [])
    (hm : normalize_text s.var_input = normalize_text w) :
    on_text_change k now s = count_correct_and_schedule_advance k now s := by
  unfold on_text_change
  dsimp only
  rw [currentOrEmpty_eq s w hcw, hcw,
    truthyWord_some w (ne_nil_of_normalize_ne_nil w hw)]
  rw [hm]
  have hne : (normalize_text w).isEmpty = false := by
    cases h : normalize_text w with
    | nil => exact absurd h hw
    | cons a t => rfl
  simp only [hne, Bool.not_true, Bool.false_eq_true, if_false,
    eq_self_iff_true, if_true]

theorem on_text_change_no_fire_mismatch (k now : Nat) (s : AppState)
    (w : List Char) (hcw : s.current_word = some w)
    (hm : normalize_text s.var_input ≠ normalize_text w) :
    on_text_change k now s = s := by
  unfold on_text_change
  dsimp only
  rw [currentOrEmpty_eq s w hcw]
  by_cases htr : (!truthyWord s.current_word) = true
  · rw [if_pos htr]
  · rw [if_neg htr]
    by_cases he : (normalize_text s.var_input).isEmpty = true
    · rw [if_pos he]
    · rw [if_neg he, if_neg hm]
      by_cases hpre : (normalize_text s.var_input).isPrefixOf
          (normalize_text w) = true
      · rw [if_pos hpre]
      · rw [if_neg hpre]

theorem on_text_change_no_fire_none (k now : Nat) (s : AppState)
    (hcw : s.current_word = none) : on_text_change k now s = s := by
  unfold on_text_change
  rw [hcw]
  rfl

theorem on_text_change_no_fire_empty (k now : Nat) (s : AppState)
    (hv : normalize_text s.var_input = []) : on_text_change k now s = s := by
  unfold on_text_change
  dsimp only
  split
  · rfl
  · rw [if_pos (by rw [hv]; rfl)]

theorem on_submit_fire (k now : Nat) (s : AppState) (w : List Char)
    (hcw : s.current_word = some w) (hw : normalize_text w ≠ [])
    (hp : s.pending_advance = false)
    (hm : normalize_text s.var_input = normalize_text w) :
    on_submit k now s = count_correct_and_schedule_advance k now s := by
  unfold on_submit
  rw [currentOrEmpty_eq s w hcw, hcw,
    truthyWord_some w (ne_nil_of_normalize_ne_nil w hw), hp, hm]
  simp only [Bool.not_true, Bool.or_false, Bool.false_eq_true, if_false,
    eq_self_iff_true, if_true]

theorem on_submit_no_fire_mismatch (k now : Nat) (s : AppState)
    (w : List Char) (hcw : s.current_word = some w)
    (hm : normalize_text s.var_input ≠ normalize_text w) :
    on_submit k now s = s := by
  unfold on_submit
  rw [currentOrEmpty_eq s w hcw]
  by_cases hg : (!truthyWord s.current_word || s.pending_advance) = true
  · rw [if_pos hg]
  · rw [if_neg hg, if_neg hm]

theorem on_submit_no_fire_none (k now : Nat) (s : AppState)
    (hcw : s.current_word = none) : on_submit k now s = s := by
  unfold on_submit
  rw [hcw]
  rfl

theorem advance_target_bank_eq (k now : Nat) (s : AppState)
    (hm : s.source_mode = Mode.bank_random) (hb : s.word_bank ≠ []) :
    advance_target k now s
      = set_current (s.word_bank.getD (k % s.word_bank.length) []) now
          { s with pending_advance := false } := by
  unfold advance_target pick_new_word_from_bank
  dsimp only
  rw [hm]
  have hbe : s.word_bank.isEmpty = false := by
    cases hh : s.word_bank with
    | nil => exact absurd hh hb
    | cons a t => rfl
  dsimp only
  simp only [hbe, Bool.false_eq_true, if_false]

theorem advance_target_quote_mid_eq (k now : Nat) (s : AppState)
    (hm : s.source_mode = Mode.quote_seq) (ht : s.quote_tokens ≠ [])
    (hidx : s.quote_idx < s.quote_tokens.length - 1) :
    advance_target k now s
      = set_current (s.quote_tokens.getD (s.quote_idx + 1) []) now
          { s with pending_advance := false, quote_idx := s.quote_idx + 1 } := by
  unfold advance_target
  dsimp only
  rw [hm]
  have hte : s.quote_tokens.isEmpty = false := by
    cases hh : s.quote_tokens with
    | nil => exact absurd hh ht
    | cons a t => rfl
  dsimp only
  simp only [hte, Bool.false_eq_true, if_false, if_pos hidx]

theorem advance_target_quote_end_eq (k now : Nat) (s : AppState)
    (hm : s.source_mode = Mode.quote_seq) (ht : s.quote_tokens ≠ [])
    (hidx : ¬ s.quote_idx < s.quote_tokens.length - 1) :
    advance_target k now s
      = { s with pending_advance := false, current_word := none } := by
  unfold advance_target
  dsimp only
  rw [hm]
  have hte : s.quote_tokens.isEmpty = false := by
    cases hh : s.quote_tokens with
    | nil => exact absurd hh ht
    | cons a t => rfl
  dsimp only
  simp only [hte, Bool.false_eq_true, if_false, if_neg hidx]

theorem on_next_word_bank_eq (k now : Nat) (s : AppState)
    (hm : s.source_mode = Mode.bank_random) (hb : s.word_bank ≠ []) :
    on_next_word k now s
      = set_current (s.word_bank.getD (k % s.word_bank.length) []) now
          { s with pending_advance := false, streak := 0
                 , session_started_at := some (s.session_started_at.getD now) } := by
  unfold on_next_word pick_new_word_from_bank
  dsimp only
  rw [hm]
  have hbe : s.word_bank.isEmpty = false := by
    cases hh : s.word_bank with
    | nil => exact absurd hh hb
    | cons a t => rfl
  dsimp only
  simp only [hbe, Bool.false_eq_true, if_false]

theorem on_next_word_quote_mid_eq (k now : Nat) (s : AppState)
    (hm : s.source_mode = Mode.quote_seq) (ht : s.quote_tokens ≠ [])
    (hidx : s.quote_idx < s.quote_tokens.length - 1) :
    on_next_word k now s
      = set_current (s.quote_tokens.getD (s.quote_idx + 1) []) now
          { s with pending_advance := false, streak := 0
                 , quote_idx := s.quote_idx + 1 } := by
  unfold on_next_word
  dsimp only
  rw [hm]
  have hte : s.quote_tokens.isEmpty = false := by
    cases hh : s.quote_tokens with
    | nil => exact absurd hh ht
    | cons a t => rfl
  dsimp only
  simp only [hte, Bool.false_eq_true, if_false, if_pos hidx]

theorem on_next_word_quote_end_eq (k now : Nat) (s : AppState)
    (hm : s.source_mode = Mode.quote_seq)
    (hidx : ¬ s.quote_idx < s.quote_tokens.length - 1) :
    on_next_word k now s
      = { s with pending_advance := false, streak := 0 } := by
  unfold on_next_word
  dsimp only
  rw [hm]
  dsimp only
  by_cases hte : s.quote_tokens.isEmpty
  · simp only [hte, if_true]
  · simp only [Bool.not_eq_true] at hte
    simp only [hte, Bool.false_eq_true, if_false, if_neg hidx]

theorem after_fire_no_refire (k now k2 n2 : Nat) (s : AppState)
    (hbank : s.source_mode = Mode.bank_random → s.word_bank ≠ [])
    (hqt : s.source_mode = Mode.quote_seq → s.quote_tokens ≠ [])
    (htok : ∀ t ∈ s.quote_tokens, normalize_text t ≠ [])
    (hbk : ∀ t ∈ s.word_bank, normalize_text t ≠ []) :
    on_submit k2 n2 (advance_target k now s) = advance_target k now s ∧
    on_text_change k2 n2 (advance_target k now s) = advance_target k now s := by
  cases hm : s.source_mode with
  | bank_random =>
    have hb := hbank hm
    rw [advance_target_bank_eq k now s hm hb]
    have hlt : k % s.word_bank.length < s.word_bank.length :=
      Nat.mod_lt _ (List.length_pos.mpr hb)
    have hmem : s.word_bank.getD (k % s.word_bank.length) [] ∈ s.word_bank := by
      rw [List.getD_eq_getElem s.word_bank [] hlt]
      exact List.getElem_mem hlt
    have hnw := hbk _ hmem
    constructor
    · exact on_submit_no_fire_mismatch k2 n2 _ _ rfl (fun hcon => hnw hcon.symm)
    · exact on_text_change_no_fire_empty k2 n2 _ rfl
  | quote_seq =>
    have ht := hqt hm
    by_cases hidx : s.quote_idx < s.quote_tokens.length - 1
    · rw [advance_target_quote_mid_eq k now s hm ht hidx]
      have hlt : s.quote_idx + 1 < s.quote_tokens.length := by
        have := List.length_pos.mpr ht
        omega
      have hmem : s.quote_tokens.getD (s.quote_idx + 1) [] ∈ s.quote_tokens := by
        rw [List.getD_eq_getElem s.quote_tokens [] hlt]
        exact List.getElem_mem hlt
      have hnw := htok _ hmem
      constructor
      · exact on_submit_no_fire_mismatch k2 n2 _ _ rfl (fun hcon => hnw hcon.symm)
      · exact on_text_change_no_fire_empty k2 n2 _ rfl
    · rw [advance_target_quote_end_eq k now s hm ht hidx]
      constructor
      · exact on_submit_no_fire_none k2 n2 _ rfl
      · exact on_text_change_no_fire_none k2 n2 _ rfl

/-!  Evolution of the quote cursor under each operation. -/

theorem advance_target_quote_evolution (k now : Nat) (s : AppState) :
    (advance_target k now s).quote_tokens = s.quote_tokens ∧
    ((advance_target k now s).quote_idx = s.quote_idx ∨
      ((advance_target k now s).quote_idx = s.quote_idx + 1 ∧
       s.quote_idx + 1 ≤ s.quote_tokens.length - 1)) := by
  unfold advance_target pick_new_word_from_bank set_current
  cases s.source_mode <;> dsimp only <;> repeat' split
  all_goals refine ⟨rfl, ?_⟩
  all_goals first
    | exact Or.inl rfl
    | exact Or.inr ⟨rfl, by omega⟩

theorem on_next_word_quote_evolution (k now : Nat) (s : AppState) :
    (on_next_word k now s).quote_tokens = s.quote_tokens ∧
    ((on_next_word k now s).quote_idx = s.quote_idx ∨
      ((on_next_word k now s).quote_idx = s.quote_idx + 1 ∧
       s.quote_idx + 1 ≤ s.quote_tokens.length - 1)) := by
  unfold on_next_word pick_new_word_from_bank set_current
  cases s.source_mode <;> dsimp only <;> repeat' split
  all_goals refine ⟨rfl, ?_⟩
  all_goals first
    | exact Or.inl rfl
    | exact Or.inr ⟨rfl, by omega⟩

theorem count_correct_quote_evolution (k now : Nat) (s : AppState) :
    (count_correct_and_schedule_advance k now s).quote_tokens = s.quote_tokens ∧
    ((count_correct_and_schedule_advance k now s).quote_idx = s.quote_idx ∨
      ((count_correct_and_schedule_advance k now s).quote_idx = s.quote_idx + 1 ∧
       s.quote_idx + 1 ≤ s.quote_tokens.length - 1)) := by
  by_cases hp : s.pending_advance = true
  · unfold count_correct_and_schedule_advance
    rw [if_pos hp]
    exact ⟨rfl, Or.inl rfl⟩
  · rw [count_correct_effect k now s (by simpa using hp)]
    exact advance_target_quote_evolution k now _

theorem on_text_change_quote_evolution (k now : Nat) (s : AppState) :
    (on_text_change k now s).quote_tokens = s.quote_tokens ∧
    ((on_text_change k now s).quote_idx = s.quote_idx ∨
      ((on_text_change k now s).quote_idx = s.quote_idx + 1 ∧
       s.quote_idx + 1 ≤ s.quote_tokens.length - 1)) := by
  unfold on_text_change
  dsimp only
  by_cases h1 : (!truthyWord s.current_word) = true
  · rw [if_pos h1]; exact ⟨rfl, Or.inl rfl⟩
  · rw [if_neg h1]
    by_cases h2 : (normalize_text s.var_input).isEmpty = true
    · rw [if_pos h2]; exact ⟨rfl, Or.inl rfl⟩
    · rw [if_neg h2]
      by_cases h3 : normalize_text s.var_input
          = normalize_text (currentOrEmpty s)
      · rw [if_pos h3]; exact count_correct_quote_evolution k now s
      · rw [if_neg h3]
        by_cases h4 : (normalize_text s.var_input).isPrefixOf
            (normalize_text (currentOrEmpty s)) = true
        · rw [if_pos h4]; exact ⟨rfl, Or.inl rfl⟩
        · rw [if_neg h4]; exact ⟨rfl, Or.inl rfl⟩

theorem on_submit_quote_evolution (k now : Nat) (s : AppState) :
    (on_submit k now s).quote_tokens = s.quote_tokens ∧
    ((on_submit k now s).quote_idx = s.quote_idx ∨
      ((on_submit k now s).quote_idx = s.quote_idx + 1 ∧
       s.quote_idx + 1 ≤ s.quote_tokens.length - 1)) := by
  unfold on_submit
  by_cases h1 : (!truthyWord s.current_word || s.pending_advance) = true
  · rw [if_pos h1]; exact ⟨rfl, Or.inl rfl⟩
  · rw [if_neg h1]
    by_cases h2 : normalize_text s.var_input
        = normalize_text (currentOrEmpty s)
    · rw [if_pos h2]; exact count_correct_quote_evolution k now s
    · rw [if_neg h2]; exact ⟨rfl, Or.inl rfl⟩

theorem maybe_start_quote_frame (k now : Nat) (s : AppState) :
    (maybe_start k now s).quote_tokens = s.quote_tokens ∧
    (maybe_start k now s).quote_idx = s.quote_idx := by
  unfold maybe_start pick_new_word_from_bank set_current
  dsimp only
  constructor
  · repeat' split
    all_goals rfl
  · repeat' split
    all_goals rfl

theorem use_bank_random_quote_frame (k now : Nat) (s : AppState) :
    (use_bank_random k now s).quote_tokens = s.quote_tokens ∧
    (use_bank_random k now s).quote_idx = s.quote_idx := by
  unfold use_bank_random pick_new_word_from_bank set_current
  dsimp only
  constructor
  · repeat' split
    all_goals rfl
  · repeat' split
    all_goals rfl

theorem on_load_word_bank_quote_frame (lines : List (List Char)) (k now : Nat)
    (s : AppState) :
    (on_load_word_bank lines k now s).quote_tokens = s.quote_tokens ∧
    (on_load_word_bank lines k now s).quote_idx = s.quote_idx := by
  unfold on_load_word_bank
  dsimp only
  split
  · exact ⟨rfl, rfl⟩
  · exact ⟨(maybe_start_quote_frame k now _).1, (maybe_start_quote_frame k now _).2⟩

theorem reset_session_quote_frame (k now : Nat) (s : AppState) :
    (reset_session k now s).quote_tokens = s.quote_tokens ∧
    (reset_session k now s).quote_idx = s.quote_idx := by
  unfold reset_session
  dsimp only
  exact ⟨(maybe_start_quote_frame k now _).1, (maybe_start_quote_frame k now _).2⟩

theorem autoload_quote_frame (bank : Option (List (List Char)))
    (dict : Option (List (List Char × JVal))) (k now : Nat) (s : AppState) :
    (autoload_last_files bank dict k now s).quote_tokens = s.quote_tokens ∧
    (autoload_last_files bank dict k now s).quote_idx = s.quote_idx := by
  unfold autoload_last_files
  cases bank <;> cases dict <;> dsimp only <;>
    exact ⟨(maybe_start_quote_frame k now _).1, (maybe_start_quote_frame k now _).2⟩

theorem step_quote_evolution (e : Event) (s : AppState)
    (hre : isRestartEvent e = false) :
    (step e s).quote_tokens = s.quote_tokens ∧
    ((step e s).quote_idx = s.quote_idx ∨
      ((step e s).quote_idx = s.quote_idx + 1 ∧
       s.quote_idx + 1 ≤ s.quote_tokens.length - 1)) := by
  cases e with
  | eSetInput b k now => exact on_text_change_quote_evolution k now _
  | eSubmit k now => exact on_submit_quote_evolution k now s
  | eNextWord k now => exact on_next_word_quote_evolution k now s
  | eRestartQuote raw now => simp [isRestartEvent] at hre
  | eUseQuoteMode raw now => simp [isRestartEvent] at hre
  | eUseBankRandom k now =>
    exact ⟨(use_bank_random_quote_frame k now s).1,
      Or.inl (use_bank_random_quote_frame k now s).2⟩
  | eLoadWordBank lines k now =>
    exact ⟨(on_load_word_bank_quote_frame lines k now s).1,
      Or.inl (on_load_word_bank_quote_frame lines k now s).2⟩
  | eLoadDict items => exact ⟨rfl, Or.inl rfl⟩
  | eReset k now =>
    exact ⟨(reset_session_quote_frame k now s).1,
      Or.inl (reset_session_quote_frame k now s).2⟩
  | eAutoload bank dict k now =>
    exact ⟨(autoload_quote_frame bank dict k now s).1,
      Or.inl (autoload_quote_frame bank dict k now s).2⟩

/-!  The stroke-shape classifier against the spec's wording. -/

theorem allowedStrokeChar_iff (c : Char) :
    allowedStrokeChar c = true ↔
      (c.isAlpha = true ∨ c.isDigit = true ∨ c = '-' ∨ c = '/' ∨ c = '*') := by
  unfold allowedStrokeChar
  simp only [Char.isAlpha, Char.isUpper, Char.isLower, Char.isDigit,
    Bool.or_eq_true, Bool.and_eq_true, decide_eq_true_eq, ge_iff_le]
  constructor
  · intro h
    rcases h with ((((h | h) | h) | h) | h) | h
    · exact Or.inl (Or.inl h)
    · exact Or.inl (Or.inr h)
    · exact Or.inr (Or.inl h)
    · exact Or.inr (Or.inr (Or.inl h))
    · exact Or.inr (Or.inr (Or.inr (Or.inl h)))
    · exact Or.inr (Or.inr (Or.inr (Or.inr h)))
  · intro h
    rcases h with (h | h) | (h | (h | (h | h)))
    · exact Or.inl (Or.inl (Or.inl (Or.inl (Or.inl h))))
    · exact Or.inl (Or.inl (Or.inl (Or.inl (Or.inr h))))
    · exact Or.inl (Or.inl (Or.inl (Or.inr h)))
    · exact Or.inl (Or.inl (Or.inr h))
    · exact Or.inl (Or.inr h)
    · exact Or.inr h

theorem looks_like_stroke_iff (s : List Char) :
    looks_like_stroke s = true ↔ StrokeShapedSpec s := by
  have hc : ∀ (x : Char), (s.contains x = true) ↔ x ∈ s := by
    intro x
    simp [List.contains]
  unfold looks_like_stroke StrokeShapedSpec
  simp only [Bool.and_eq_true, Bool.or_eq_true, List.all_eq_true]
  constructor
  · rintro ⟨hall, hsep⟩
    refine ⟨fun c hcm => (allowedStrokeChar_iff c).mp (hall c hcm), ?_⟩
    rcases hsep with (h | h) | h
    · exact ⟨'/', (hc '/').mp h, Or.inr (Or.inl rfl)⟩
    · exact ⟨'-', (hc '-').mp h, Or.inl rfl⟩
    · exact ⟨'*', (hc '*').mp h, Or.inr (Or.inr rfl)⟩
  · rintro ⟨hall, c, hcm, hd⟩
    refine ⟨fun d hdm => (allowedStrokeChar_iff d).mpr (hall d hdm), ?_⟩
    rcases hd with h | h | h
    · subst h; exact Or.inl (Or.inr ((hc _).mpr hcm))
    · subst h; exact Or.inl (Or.inl ((hc _).mpr hcm))
    · subst h; exact Or.inr ((hc _).mpr hcm)

theorem invertLoop_nil_lookup (items : List (List Char × JVal)) (t : List Char) :
    dlookup (invertLoop items []) t =
      (if strokesFor t items = [] then none else some (strokesFor t items)) := by
  have h := invertLoop_lookup items [] t
  simpa [dlookup] using h

/-!  The claims. -/

/-- C3: the dictionary loader classifies a key as stroke-shaped iff every
character is a letter, digit, `-`, `/` or `*` and at least one separator
occurs; it takes the inverting (stroke→translation) branch iff the
stroke-shaped-key count is at least `max 1 (N/4)` and the string-valued
count at least `max 1 (3N/4)`; in that branch each translation value is
normalized and the strokes of a repeated translation accumulate in
encounter order; otherwise it takes the translation→strokes branch. -/
theorem C3_loader_branches (items : List (List Char × JVal)) (t : List Char) :
    (∀ kk : List Char, looks_like_stroke kk = true ↔ StrokeShapedSpec kk) ∧
    (strokeCond items = true ↔
      (max 1 (items.length / 4) ≤ items.countP (fun p => looks_like_stroke p.1) ∧
       max 1 (items.length * 3 / 4) ≤ items.countP (fun p => p.2.isStr))) ∧
    (items ≠ [] → strokeCond items = true →
      load_dictionary items = invertLoop items [] ∧
      dlookup (load_dictionary items) t =
        (if strokesFor t items = [] then none else some (strokesFor t items))) ∧
    (items ≠ [] → strokeCond items = false →
      load_dictionary items = directLoop items []) := by
  have hie : items ≠ [] → items.isEmpty = false := by
    intro h
    cases hh : items with
    | nil => exact absurd hh h
    | cons a l => rfl
  refine ⟨looks_like_stroke_iff, ?_, ?_, ?_⟩
  · unfold strokeCond
    rw [Bool.and_eq_true, decide_eq_true_eq, decide_eq_true_eq]
  · intro hne hcond
    have h1 : load_dictionary items = invertLoop items [] := by
      unfold load_dictionary
      simp only [hie hne, Bool.false_eq_true, if_false, hcond, if_true]
    exact ⟨h1, by rw [h1, invertLoop_nil_lookup]⟩
  · intro hne hcond
    unfold load_dictionary
    simp only [hie hne, Bool.false_eq_true, if_false, hcond]

/-- Witness for C3 at the stroke-keyed object `{"A-B": "x y", "C/D": "x y"}`:
the inverting branch is taken and both strokes accumulate, in encounter
order, under the shared translation `"x y"`. -/
theorem C3_witness :
    strokeCond c3_items = true ∧
    dlookup (load_dictionary c3_items) ['x',' ','y']
      = some [['A','-','B'], ['C','/','D']] := by
  have h := C3_loader_branches c3_items ['x',' ','y']
  refine ⟨by decide, ?_⟩
  rw [(h.2.2.1 (List.cons_ne_nil _ _) (by decide)).2]
  decide

/-- C4: the dictionary `{"message": ["PHEPBLG"], "cellular": "KREL/HRER"}`
loads as `{"message": ["PHEPBLG"], "cellular": ["KREL/HRER"]}`, and the
inverted dictionary `{"PHEPBLG": "message", "KREL/HRER": "cellular"}` loads
to that same mapping (orientation auto-detected). -/
theorem C4_scenario :
    load_dictionary c4_direct = c4_expected ∧
    load_dictionary c4_inverted = c4_expected := by
  constructor <;> decide

/-- C7 counterexample: loading `{"Message": ["PHEPBLG"]}` keeps the
capitalized key `"Message"`, which differs from its own lower-cased,
punctuation-stripped form `"message"`; consequently the hint lookup for the
word `"Message"` misses. -/
theorem C7_counterexample :
    dictKeys (load_dictionary c7_items) = [['M','e','s','s','a','g','e']] ∧
    hint_clean ['M','e','s','s','a','g','e'] ≠ ['M','e','s','s','a','g','e'] ∧
    hint_lookup (load_dictionary c7_items) ['M','e','s','s','a','g','e']
      = none := by
  decide

/-- C7 (amended): every key of the mapping produced by the dictionary loader
is whitespace-normalized translation text — each key equals its own
normalized form; case and punctuation are preserved, and only the hint
lookup lower-cases and strips edge punctuation from the queried word. -/
theorem C7_keys_normalized (items : List (List Char × JVal)) :
    ∀ q ∈ dictKeys (load_dictionary items), normalize_text q = q := by
  intro q hq
  unfold load_dictionary at hq
  by_cases hie : items.isEmpty = true
  · rw [if_pos hie] at hq
    simp [dictKeys] at hq
  · rw [if_neg hie] at hq
    by_cases hcond : strokeCond items = true
    · rw [if_pos hcond] at hq
      refine invertLoop_keys_normalized items [] ?_ q hq
      intro q0 hq0
      simp [dictKeys] at hq0
    · rw [if_neg hcond] at hq
      refine directLoop_keys_normalized items [] ?_ q hq
      intro q0 hq0
      simp [dictKeys] at hq0

/-- Witness for the amended C7 at `{"a  b": "X"}`: the loaded key is the
normalized `"a b"`, a fixed point of normalization. -/
theorem C7_witness :
    (['a',' ','b'] ∈ dictKeys (load_dictionary c7w_items)) ∧
    normalize_text ['a',' ','b'] = ['a',' ','b'] :=
  ⟨by decide, C7_keys_normalized c7w_items ['a',' ','b'] (by decide)⟩

/-- C8: in every reachable session state, correct attempts never exceed
total attempts; the accuracy metric is the rounded percentage (0 when no
attempts were made) and always lies in [0, 100]. -/
theorem C8_accuracy (s : AppState) (h : Reachable s) :
    s.correct_attempts ≤ s.total_attempts ∧
    compute_accuracy s = (if s.total_attempts = 0 then 0
      else pyRound (100 * ((s.correct_attempts : ℚ) / (s.total_attempts : ℚ)))) ∧
    0 ≤ compute_accuracy s ∧ compute_accuracy s ≤ 100 := by
  have h1 := reachable_correct_le_total s h
  have h2 := compute_accuracy_bounds s h1
  exact ⟨h1, rfl, h2.1, h2.2⟩

/-- Witness for C8 at the state reached by loading the bank `cat` and
typing `cat`. -/
theorem C8_witness :
    c8_state.correct_attempts ≤ c8_state.total_attempts ∧
    compute_accuracy c8_state = (if c8_state.total_attempts = 0 then 0
      else pyRound (100 * ((c8_state.correct_attempts : ℚ)
        / (c8_state.total_attempts : ℚ)))) ∧
    0 ≤ compute_accuracy c8_state ∧ compute_accuracy c8_state ≤ 100 :=
  C8_accuracy c8_state (Reachable.step _ (Reachable.step _ Reachable.init))

/-- C10: in the translation→strokes (non-inverting) branch, the loaded
binding of a translation is the one assigned by the last entry whose
normalized key is that translation (and whose value shape is supported) —
the later entry replaces the earlier one, in contrast with the accumulation
of the inverting branch. -/
theorem C10_direct_last_wins (items : List (List Char × JVal)) (t : List Char)
    (hne : items ≠ []) (hcond : strokeCond items = false) :
    dlookup (load_dictionary items) t = lastStrokesFor t items := by
  have hie : items.isEmpty = false := by
    cases hh : items with
    | nil => exact absurd hh hne
    | cons a l => rfl
  unfold load_dictionary
  simp only [hie, Bool.false_eq_true, if_false, hcond]
  rw [directLoop_lookup items [] t]
  cases h : lastStrokesFor t items <;> simp [dlookup, Option.or]

/-- Witness for C10 at `{"a b": "X", "a  b": "Y"}`: two distinct raw keys
normalize to the same translation `"a b"` and the later entry's stroke list
`["Y"]` wins. -/
theorem C10_witness :
    strokeCond c10_items = false ∧
    (['a',' ','b'] : List Char) ≠ ['a',' ',' ','b'] ∧
    normalize_text ['a',' ',' ','b'] = normalize_text ['a',' ','b'] ∧
    dlookup (load_dictionary c10_items) ['a',' ','b'] = some [['Y']] := by
  have h := C10_direct_last_wins c10_items ['a',' ','b']
    (List.cons_ne_nil _ _) (by decide)
  exact ⟨by decide, by decide, by decide, by rw [h]; decide⟩

/-- C1: once the correct-attempt transition has fired for a Target
occurrence through one path, the other path cannot fire it again: whether
the input-change evaluation runs first and the explicit submit second, or
the other way round, each counter grows by exactly one (and the correct
characters by one target length), never by two.  The session hypotheses are
the reachable-state facts: an active Target with non-empty normalization,
the guard clear, a non-empty bank in bank mode, non-empty tokens in quote
mode, and targets drawn from lists whose normalizations are non-empty. -/
theorem C1_double_path_single_count (s : AppState) (w b : List Char)
    (k1 n1 k2 n2 : Nat)
    (hcw : s.current_word = some w)
    (hp : s.pending_advance = false)
    (hm : normalize_text b = normalize_text w)
    (hw : normalize_text w ≠ [])
    (hbank : s.source_mode = Mode.bank_random → s.word_bank ≠ [])
    (hqt : s.source_mode = Mode.quote_seq → s.quote_tokens ≠ [])
    (htok : ∀ t ∈ s.quote_tokens, normalize_text t ≠ [])
    (hbk : ∀ t ∈ s.word_bank, normalize_text t ≠ []) :
    ((on_submit k2 n2 (set_input b k1 n1 s)).total_attempts
        = s.total_attempts + 1 ∧
     (on_submit k2 n2 (set_input b k1 n1 s)).correct_attempts
        = s.correct_attempts + 1 ∧
     (on_submit k2 n2 (set_input b k1 n1 s)).streak = s.streak + 1 ∧
     (on_submit k2 n2 (set_input b k1 n1 s)).best_streak
        = max s.best_streak (s.streak + 1) ∧
     (on_submit k2 n2 (set_input b k1 n1 s)).total_correct_chars
        = s.total_correct_chars + (normalize_text w).length) ∧
    ((on_text_change k2 n2
        (on_submit k1 n1 { s with var_input := b })).total_attempts
        = s.total_attempts + 1 ∧
     (on_text_change k2 n2
        (on_submit k1 n1 { s with var_input := b })).correct_attempts
        = s.correct_attempts + 1 ∧
     (on_text_change k2 n2
        (on_submit k1 n1 { s with var_input := b })).streak = s.streak + 1 ∧
     (on_text_change k2 n2
        (on_submit k1 n1 { s with var_input := b })).best_streak
        = max s.best_streak (s.streak + 1) ∧
     (on_text_change k2 n2
        (on_submit k1 n1 { s with var_input := b })).total_correct_chars
        = s.total_correct_chars + (normalize_text w).length) := by
  have hcw' : ({ s with var_input := b } : AppState).current_word = some w := hcw
  have hp' : ({ s with var_input := b } : AppState).pending_advance = false := hp
  have hm' : normalize_text ({ s with var_input := b } : AppState).var_input
      = normalize_text w := hm
  have hfireA : set_input b k1 n1 s
      = count_correct_and_schedule_advance k1 n1 { s with var_input := b } := by
    unfold set_input
    exact on_text_change_fire k1 n1 _ w hcw' hw hm'
  have hfireB : on_submit k1 n1 { s with var_input := b }
      = count_correct_and_schedule_advance k1 n1 { s with var_input := b } :=
    on_submit_fire k1 n1 _ w hcw' hw hp' hm'
  have heff := count_correct_effect k1 n1 { s with var_input := b } hp'
  have hcount := count_correct_counters k1 n1 { s with var_input := b } hp'
  have hce : currentOrEmpty ({ s with var_input := b } : AppState) = w :=
    currentOrEmpty_eq _ w hcw'
  have hnof : on_submit k2 n2
        (count_correct_and_schedule_advance k1 n1 { s with var_input := b })
      = count_correct_and_schedule_advance k1 n1 { s with var_input := b } ∧
      on_text_change k2 n2
        (count_correct_and_schedule_advance k1 n1 { s with var_input := b })
      = count_correct_and_schedule_advance k1 n1 { s with var_input := b } := by
    rw [heff]
    exact after_fire_no_refire k1 n1 k2 n2 _ hbank hqt htok hbk
  rw [hce] at hcount
  constructor
  · rw [hfireA, hnof.1]
    exact hcount
  · rw [hfireB, hnof.2]
    exact hcount

/-- Witness for C1: in a bank session on Target `"cat"`, typing `cat` and
then pressing Enter counts a single attempt. -/
theorem C1_witness :
    bank_cat_state.current_word = some ['c','a','t'] ∧
    bank_cat_state.pending_advance = false ∧
    (on_submit 1 6 (set_input ['c','a','t'] 0 5 bank_cat_state)).total_attempts
      = bank_cat_state.total_attempts + 1 ∧
    (on_submit 1 6 (set_input ['c','a','t'] 0 5 bank_cat_state)).correct_attempts
      = bank_cat_state.correct_attempts + 1 := by
  have h := C1_double_path_single_count bank_cat_state ['c','a','t'] ['c','a','t']
    0 5 1 6 rfl rfl rfl (by decide) (by decide) (by decide) (by decide) (by decide)
  exact ⟨rfl, rfl, h.1.1, h.1.2.1⟩

/-- C2: with an active Target and a clear guard, the correct-attempt
transition fires — through either path — exactly when the normalized buffer
equals the normalized Target; on a mismatch the session state is unchanged
apart from the buffer itself.  Whitespace-only differences therefore match,
while case or punctuation differences never do. -/
theorem C2_match_iff (s : AppState) (w b : List Char) (k now : Nat)
    (hcw : s.current_word = some w)
    (hp : s.pending_advance = false)
    (hw : normalize_text w ≠ []) :
    ((set_input b k now s).total_attempts = s.total_attempts + 1 ↔
      normalize_text b = normalize_text w) ∧
    ((on_submit k now { s with var_input := b }).total_attempts
        = s.total_attempts + 1 ↔ normalize_text b = normalize_text w) ∧
    (normalize_text b ≠ normalize_text w →
      set_input b k now s = { s with var_input := b } ∧
      on_submit k now { s with var_input := b } = { s with var_input := b }) := by
  have hcw' : ({ s with var_input := b } : AppState).current_word = some w := hcw
  have hp' : ({ s with var_input := b } : AppState).pending_advance = false := hp
  by_cases hm : normalize_text b = normalize_text w
  · have hm' : normalize_text ({ s with var_input := b } : AppState).var_input
        = normalize_text w := hm
    have hfA : set_input b k now s
        = count_correct_and_schedule_advance k now { s with var_input := b } := by
      unfold set_input
      exact on_text_change_fire k now _ w hcw' hw hm'
    have hfB : on_submit k now { s with var_input := b }
        = count_correct_and_schedule_advance k now { s with var_input := b } :=
      on_submit_fire k now _ w hcw' hw hp' hm'
    have hc := count_correct_counters k now { s with var_input := b } hp'
    refine ⟨?_, ?_, fun hcon => absurd hm hcon⟩
    · rw [hfA]
      exact iff_of_true hc.1 hm
    · rw [hfB]
      exact iff_of_true hc.1 hm
  · have hm' : normalize_text ({ s with var_input := b } : AppState).var_input
        ≠ normalize_text w := hm
    have hnA : on_text_change k now { s with var_input := b }
        = { s with var_input := b } :=
      on_text_change_no_fire_mismatch k now _ w hcw' hm'
    have hnB : on_submit k now { s with var_input := b }
        = { s with var_input := b } :=
      on_submit_no_fire_mismatch k now _ w hcw' hm'
    have hne : ¬ (({ s with var_input := b } : AppState).total_attempts
        = s.total_attempts + 1) := by
      dsimp only
      omega
    refine ⟨?_, ?_, fun _ => ⟨hnA, hnB⟩⟩
    · rw [show set_input b k now s = { s with var_input := b } from hnA]
      exact iff_of_false hne hm
    · rw [hnB]
      exact iff_of_false hne hm

/-- Witness for C2 on Target `"a b"`: the buffer `" a  b "` (whitespace-only
difference) fires the transition, while `"A b"` (case difference) and
`"a b!"` (punctuation difference) do not. -/
theorem C2_witness :
    (set_input [' ','a',' ',' ','b',' '] 0 0 bank_ab_state).total_attempts
      = bank_ab_state.total_attempts + 1 ∧
    (set_input ['A',' ','b'] 0 0 bank_ab_state).total_attempts
      = bank_ab_state.total_attempts ∧
    (set_input ['a',' ','b','!'] 0 0 bank_ab_state).total_attempts
      = bank_ab_state.total_attempts := by
  have h1 := C2_match_iff bank_ab_state ['a',' ','b'] [' ','a',' ',' ','b',' ']
    0 0 rfl rfl (by decide)
  have h2 := C2_match_iff bank_ab_state ['a',' ','b'] ['A',' ','b']
    0 0 rfl rfl (by decide)
  have h3 := C2_match_iff bank_ab_state ['a',' ','b'] ['a',' ','b','!']
    0 0 rfl rfl (by decide)
  refine ⟨h1.1.mpr (by decide), ?_, ?_⟩
  · rw [(h2.2.2 (by decide)).1]
  · rw [(h3.2.2 (by decide)).1]

/-- C5: outside an explicit restart, every event leaves the quote token
sequence unchanged and never decreases the cursor; a cursor within bounds
stays within `len(tokens) - 1`; and once the sequence is exhausted (Target
cleared at the last token), typing, submitting and skipping leave the
Target cleared and the cursor in place. -/
theorem C5_quote_cursor (e : Event) (s : AppState)
    (hre : isRestartEvent e = false) :
    s.quote_idx ≤ (step e s).quote_idx ∧
    (step e s).quote_tokens = s.quote_tokens ∧
    (s.quote_tokens ≠ [] → s.quote_idx ≤ s.quote_tokens.length - 1 →
      (step e s).quote_idx ≤ s.quote_tokens.length - 1) ∧
    (s.source_mode = Mode.quote_seq → s.quote_tokens ≠ [] →
      s.current_word = none → s.quote_idx = s.quote_tokens.length - 1 →
      ∀ b k now,
        set_input b k now s = { s with var_input := b } ∧
        on_submit k now s = s ∧
        on_next_word k now s = { s with pending_advance := false, streak := 0 }) := by
  have h := step_quote_evolution e s hre
  refine ⟨?_, h.1, ?_, ?_⟩
  · rcases h.2 with h2 | ⟨h2, h3⟩ <;> omega
  · intro ht hb
    rcases h.2 with h2 | ⟨h2, h3⟩ <;> omega
  · intro hm ht hc hidx b k now
    refine ⟨?_, on_submit_no_fire_none k now s hc, ?_⟩
    · exact on_text_change_no_fire_none k now { s with var_input := b } hc
    · refine on_next_word_quote_end_eq k now s hm ?_
      omega

/-- Witness for C5 at an exhausted two-token quote session under a submit
event. -/
theorem C5_witness :
    quote_exhausted_state.quote_idx
      ≤ (step (Event.eSubmit 0 0) quote_exhausted_state).quote_idx ∧
    (step (Event.eSubmit 0 0) quote_exhausted_state).quote_tokens
      = quote_exhausted_state.quote_tokens ∧
    on_submit 3 4 quote_exhausted_state = quote_exhausted_state := by
  have h := C5_quote_cursor (Event.eSubmit 0 0) quote_exhausted_state (by decide)
  exact ⟨h.1, h.2.1, (h.2.2.2 rfl (by decide) rfl (by decide) [] 3 4).2.1⟩

/-- C6 counterexample: in quote mode at the last token (`"cat"`, an active
Target), the manual skip reports end-of-quote and does not advance — the
Target, the cursor and the token sequence are all unchanged — contradicting
the claim that skip advances to a new Target in every state with an active
Target. -/
theorem C6_counterexample :
    quote_end_state.current_word = some ['c','a','t'] ∧
    (on_next_word 0 0 quote_end_state).current_word
      = quote_end_state.current_word ∧
    (on_next_word 0 0 quote_end_state).quote_idx = quote_end_state.quote_idx ∧
    (on_next_word 0 0 quote_end_state).quote_tokens
      = quote_end_state.quote_tokens ∧
    (on_next_word 0 0 quote_end_state).source_mode
      = quote_end_state.source_mode := by
  decide

/-- C6 (amended): for every session state with an active Target, manual skip
resets the streak to 0 and leaves total attempts, correct attempts and total
correct characters unchanged; it advances to a new Target — without the
correct-attempt transition — in bank mode with a non-empty bank and in quote
mode before the last token, while in quote mode at (or past) the last token
it changes nothing beyond the guard and the streak. -/
theorem C6_manual_skip (k now : Nat) (s : AppState) (w : List Char)
    (hcw : s.current_word = some w) :
    (on_next_word k now s).streak = 0 ∧
    (on_next_word k now s).total_attempts = s.total_attempts ∧
    (on_next_word k now s).correct_attempts = s.correct_attempts ∧
    (on_next_word k now s).total_correct_chars = s.total_correct_chars ∧
    (s.source_mode = Mode.bank_random → s.word_bank ≠ [] →
      (on_next_word k now s).current_word
        = some (s.word_bank.getD (k % s.word_bank.length) [])) ∧
    (s.source_mode = Mode.quote_seq →
      s.quote_idx < s.quote_tokens.length - 1 →
      (on_next_word k now s).current_word
        = some (s.quote_tokens.getD (s.quote_idx + 1) [])) ∧
    (s.source_mode = Mode.quote_seq →
      ¬ s.quote_idx < s.quote_tokens.length - 1 →
      on_next_word k now s = { s with pending_advance := false, streak := 0 }) := by
  have hf := on_next_word_frame k now s
  refine ⟨hf.2.2.2.2.2.2.2.1, hf.1, hf.2.1, hf.2.2.1, ?_, ?_, ?_⟩
  · intro hmode hb
    rw [on_next_word_bank_eq k now s hmode hb]
    rfl
  · intro hmode hidx
    have ht : s.quote_tokens ≠ [] := by
      intro h0
      rw [h0] at hidx
      simp at hidx
    rw [on_next_word_quote_mid_eq k now s hmode ht hidx]
    rfl
  · intro hmode hidx
    exact on_next_word_quote_end_eq k now s hmode hidx

/-- Witness for the amended C6: skipping the bank Target `"cat"` zeroes the
streak, leaves the counters alone and selects a bank word as the new
Target. -/
theorem C6_witness :
    (on_next_word 0 0 bank_cat_state).streak = 0 ∧
    (on_next_word 0 0 bank_cat_state).total_attempts
      = bank_cat_state.total_attempts ∧
    (on_next_word 0 0 bank_cat_state).correct_attempts
      = bank_cat_state.correct_attempts ∧
    (on_next_word 0 0 bank_cat_state).current_word = some ['c','a','t'] := by
  have h := C6_manual_skip 0 0 bank_cat_state ['c','a','t'] rfl
  refine ⟨h.1, h.2.1, h.2.2.1, ?_⟩
  rw [h.2.2.2.2.1 rfl (by decide)]
  decide

/-- C9 counterexample: at the end of the quote sequence, the advancing
transition (invoked after the correct attempt on the last token `"cat"`)
clears the Target and resets the guard, but the typed buffer keeps its
content `"cat"` instead of being cleared. -/
theorem C9_counterexample :
    (advance_target 0 0 quote_end_typed_state).pending_advance = false ∧
    (advance_target 0 0 quote_end_typed_state).current_word = none ∧
    (advance_target 0 0 quote_end_typed_state).var_input = ['c','a','t'] ∧
    (['c','a','t'] : List Char) ≠ [] := by
  decide

/-- C9 (amended): every advancing transition (automatic advance and manual
skip) resets the Pending-Advance flag to false in every mode and at every
cursor position; the typed buffer is cleared whenever a new Target is
installed — bank mode with a non-empty bank, and quote mode before the last
token — but at the end of the quote sequence the buffer retains its
content. -/
theorem C9_advance_resets (k now : Nat) (s : AppState) :
    (advance_target k now s).pending_advance = false ∧
    (on_next_word k now s).pending_advance = false ∧
    (s.source_mode = Mode.bank_random → s.word_bank ≠ [] →
      (advance_target k now s).var_input = [] ∧
      (on_next_word k now s).var_input = []) ∧
    (s.source_mode = Mode.quote_seq →
      s.quote_idx < s.quote_tokens.length - 1 →
      (advance_target k now s).var_input = [] ∧
      (on_next_word k now s).var_input = []) := by
  refine ⟨(advance_target_frame k now s).2.2.2.2.2.2.2.2,
    (on_next_word_frame k now s).2.2.2.2.2.2.2.2, ?_, ?_⟩
  · intro hmode hb
    rw [advance_target_bank_eq k now s hmode hb,
      on_next_word_bank_eq k now s hmode hb]
    exact ⟨rfl, rfl⟩
  · intro hmode hidx
    have ht : s.quote_tokens ≠ [] := by
      intro h0
      rw [h0] at hidx
      simp at hidx
    rw [advance_target_quote_mid_eq k now s hmode ht hidx,
      on_next_word_quote_mid_eq k now s hmode ht hidx]
    exact ⟨rfl, rfl⟩

/-- Witness for the amended C9 in bank mode: both advancing transitions
reset the guard and clear the buffer. -/
theorem C9_witness :
    (advance_target 0 0 bank_cat_state).pending_advance = false ∧
    (advance_target 0 0 bank_cat_state).var_input = [] ∧
    (on_next_word 0 0 bank_cat_state).var_input = [] := by
  have h := C9_advance_resets 0 0 bank_cat_state
  exact ⟨h.1, (h.2.2.1 rfl (by decide)).1, (h.2.2.1 rfl (by decide)).2⟩

end Stenotype
